import Mathlib

/-
Verification of the SecuNet TI Konnektor PIN calculator (src/src/main.rs).

Shallow embedding: bytes are `Nat` (the Rust code is `u8`; every arithmetic
operation in the source stays below 256, and the only bytes consumed for
digits are those accepted by the `< 200` guard, so plain `Nat` is faithful).
The SHA-512 primitive comes from the external `sha2` crate, so it is an
abstract parameter `hash`; the hashing context (`Sha512::new`,
`chain_update`, `finalize`) is modelled as the accumulated message.
Reading serial numbers from device files is file I/O (an external
collaborator); its outcome is an abstract `deviceRead` parameter.
-/

set_option maxRecDepth 200000

namespace PinCalc

/-- `type Error = &'static str;` -/
abbrev Error := String

/-- `const NUMBER_OF_CARD_READERS: usize = 3;` -/
def NUMBER_OF_CARD_READERS : Nat := 3

/-- `const NUMBER_OF_PINS: usize = 6;` -/
def NUMBER_OF_PINS : Nat := 6

/-- `const SHA512_HASH_LENGTH: usize = 0x40;` -/
def SHA512_HASH_LENGTH : Nat := 0x40

/-- `struct SerialNumber([u8; Self::LENGTH]);` — a list of bytes. -/
abbrev SerialNumber := List Nat

/-- `SerialNumber::LENGTH` -/
def SerialNumber.LENGTH : Nat := 8

/-- `enum Algorithm { DefaultPin = 0, DoubleSHA512 = 3 }` -/
inductive Algorithm where
  | DefaultPin
  | DoubleSHA512
deriving DecidableEq, Repr

/-- A `Pin` is the raw byte record `[u8; Pin::SIZE]`, modelled as a byte list. -/
abbrev Pin := List Nat

/-- `Pin::STOP: u8 = 0xff;` -/
def Pin.STOP : Nat := 0xff

/-- `Pin::LENGTH: u8 = 12;` -/
def Pin.LENGTH : Nat := 12

/-- `Pin::CONTROL: u8 = 0x20;` -/
def Pin.CONTROL : Nat := 0x20

/-- `Pin::DIGIT_PAIRS: usize = Self::LENGTH as usize / 2;` -/
def Pin.DIGIT_PAIRS : Nat := Pin.LENGTH / 2

/-- `Pin::SIZE: usize = 2 + Self::DIGIT_PAIRS;` -/
def Pin.SIZE : Nat := 2 + Pin.DIGIT_PAIRS

/-- Rust `slice::copy_from_slice` into `arr[start..start+src.length]`
(in the source it is always called with a slice of exactly `src`'s length). -/
def copyFromSlice (arr : List Nat) (start : Nat) (src : List Nat) : List Nat :=
  arr.take start ++ src ++ arr.drop (start + src.length)

/-- `Pin::new`: start from
`[ CONTROL | LENGTH, 0, 0, 0, 0, 0, 0, STOP ]` and copy the digit pairs
into positions `1..=DIGIT_PAIRS`. -/
def Pin.new (digit_pairs : List Nat) : Pin :=
  copyFromSlice
    [Pin.CONTROL ||| Pin.LENGTH, 0, 0, 0, 0, 0, 0, Pin.STOP] 1 digit_pairs

/-- `Pin::default`: the fixed digit sequence 1 2 3 4 5 6 7 8 9 1 2 3. -/
def Pin.default : Pin :=
  Pin.new [0x12, 0x34, 0x56, 0x78, 0x91, 0x23]

/-- The packed digit pair computed by `Random::next` from an accepted byte:
`( ((byte % 100) / 10) << 4 ) & 0xf0 | (byte % 10)`. -/
def mapByte (b : Nat) : Nat :=
  (((b % 100 / 10) <<< 4) &&& 0xf0) ||| (b % 10)

/-- `struct Random(IntoIter<u8, {2*SHA512_HASH_LENGTH}>);` — the remaining,
not yet consumed bytes of the randomness buffer. -/
abbrev Random := List Nat

/-- `Random::new(buffer)` wraps the buffer in its byte iterator. -/
def Random.new (buffer : List Nat) : Random := buffer

/-- `Random::next`: `find_map` over the remaining bytes — skip every byte
`>= 200`, map the first byte `< 200` through the digit-pair packing, or
fail with "End of randomness" once the iterator is exhausted.  The result
is the returned `Result` paired with the state of the iterator afterwards
(on failure `find_map` has consumed every remaining byte). -/
def Random.next : Random → (Except Error Nat × Random)
  | [] => (.error "End of randomness", [])
  | b :: rest =>
      if b < 200 then (.ok (mapByte b), rest) else Random.next rest

/-- `core::array::try_from_fn(|_| prng.next())` for an array of size `k`:
pull `k` values in order, stopping at the first error. -/
def tryFromFnNext : Nat → Random → (Except Error (List Nat) × Random)
  | 0, l => (.ok [], l)
  | k + 1, l =>
      match Random.next l with
      | (.error e, l1) => (.error e, l1)
      | (.ok v, l1) =>
          match tryFromFnNext k l1 with
          | (.error e, l2) => (.error e, l2)
          | (.ok vs, l2) => (.ok (v :: vs), l2)

/-- `Pin::from_prng`: pull `DIGIT_PAIRS` packed pairs from the shared
generator and frame them with `Pin::new`. -/
def Pin.from_prng (prng : Random) : (Except Error Pin × Random) :=
  match tryFromFnNext Pin.DIGIT_PAIRS prng with
  | (.error e, l1) => (.error e, l1)
  | (.ok digit_pairs, l1) => (.ok (Pin.new digit_pairs), l1)

/-- `core::array::try_from_fn(|_| Pin::from_prng(&mut prng))` for `m` PINs:
the same mutable generator is threaded through all calls. -/
def pinsFromPrng : Nat → Random → (Except Error (List Pin) × Random)
  | 0, l => (.ok [], l)
  | m + 1, l =>
      match Pin.from_prng l with
      | (.error e, l1) => (.error e, l1)
      | (.ok p, l1) =>
          match pinsFromPrng m l1 with
          | (.error e, l2) => (.error e, l2)
          | (.ok ps, l2) => (.ok (p :: ps), l2)

/-- The `sha2::Sha512` hashing context, modelled by the message bytes
accumulated so far (`finalize` applies the abstract `hash` to them). -/
structure Sha512Ctx where
  msg : List Nat
deriving DecidableEq, Repr

/-- `Sha512::new()` — empty context. -/
def Sha512Ctx.new : Sha512Ctx := ⟨[]⟩

/-- `Digest::chain_update` — absorb more bytes. -/
def Sha512Ctx.chain_update (h : Sha512Ctx) (data : List Nat) : Sha512Ctx :=
  ⟨h.msg ++ data⟩

/-- `try_derive_prng`: fold the serial numbers into one hashing context
(serial numbers taken as given, or else the device-read outcome), write
`digest1` into the first half of a zeroed `2*SHA512_HASH_LENGTH` buffer
(`finalize_into_reset`), then hash `buffer[..SHA512_HASH_LENGTH]` with the
reset context into the second half (`finalize_into`).
`hash` abstracts the external SHA-512 compression; `deviceRead` abstracts
`try_read_serial_number_from_devices(None)`. -/
def tryDerivePrng (hash : List Nat → List Nat)
    (deviceRead : Except Error (List SerialNumber))
    (serial_numbers : Option (List SerialNumber)) :
    Except Error Random :=
  match (match serial_numbers with
         | some ids => Except.ok ids
         | none => deviceRead) with
  | .error e => .error e
  | .ok ids =>
      let hasher := ids.foldl (fun h sn => h.chain_update sn) Sha512Ctx.new
      let buffer := List.replicate (2 * SHA512_HASH_LENGTH) 0
      let buffer := copyFromSlice buffer 0 (hash hasher.msg)
      let buffer := copyFromSlice buffer SHA512_HASH_LENGTH
        (hash ((Sha512Ctx.new.chain_update
          (buffer.take SHA512_HASH_LENGTH)).msg))
      .ok (Random.new buffer)

/-- `try_calculate_all_pins_with_algorithm`: `DefaultPin` returns
`[Pin::default(); NUMBER_OF_PINS]`; `DoubleSHA512` derives the PRNG and
pulls `NUMBER_OF_PINS` PINs from it. -/
def tryCalculateAllPinsWithAlgorithm (hash : List Nat → List Nat)
    (deviceRead : Except Error (List SerialNumber))
    (serial_numbers : Option (List SerialNumber))
    (algorithm : Algorithm) :
    Except Error (List Pin) :=
  match algorithm with
  | .DefaultPin => .ok (List.replicate NUMBER_OF_PINS Pin.default)
  | .DoubleSHA512 =>
      match tryDerivePrng hash deviceRead serial_numbers with
      | .error e => .error e
      | .ok prng => (pinsFromPrng NUMBER_OF_PINS prng).1

/-- `try_calculate_all_pins`: fixed to the `DoubleSHA512` algorithm. -/
def tryCalculateAllPins (hash : List Nat → List Nat)
    (deviceRead : Except Error (List SerialNumber))
    (serial_numbers : Option (List SerialNumber)) :
    Except Error (List Pin) :=
  tryCalculateAllPinsWithAlgorithm hash deviceRead serial_numbers
    .DoubleSHA512

/-- `try_get_pin_by_id`: `(pin_index < NUMBER_OF_PINS).then_some(...)`
evaluates the full calculation eagerly, `.transpose()?` propagates a
calculation error only when the index was in range, and `.ok_or` turns the
out-of-range `None` into "pin-index out of range". -/
def tryGetPinById (hash : List Nat → List Nat)
    (deviceRead : Except Error (List SerialNumber))
    (serial_numbers : Option (List SerialNumber))
    (pin_index : Nat) :
    Except Error Pin :=
  let computed :=
    (tryCalculateAllPins hash deviceRead serial_numbers).map
      (fun pin_data => pin_data.getD pin_index [])
  if pin_index < NUMBER_OF_PINS then computed
  else .error "pin-index out of range"

/-- The sequence of digit-pair values the stream can emit from a buffer, in
buffer order: every byte `< 200` accepted and packed, every other byte
skipped. -/
def emitted (l : List Nat) : List Nat :=
  (l.filter (fun b => decide (b < 200))).map mapByte

/-- The digit-pair bytes of a PIN record: positions `1..=DIGIT_PAIRS`. -/
def digitPairsOf (p : Pin) : List Nat :=
  (p.drop 1).take Pin.DIGIT_PAIRS

/-- Concrete hash stand-in (all-zero digest) used to instantiate theorems. -/
def hashZero : List Nat → List Nat := fun _ => List.replicate 64 0

/-- Concrete hash stand-in whose digest bytes are all rejected (`255`). -/
def hashFF : List Nat → List Nat := fun _ => List.replicate 64 255

/-- The serial numbers hard-coded in `SERIAL_NUMBERS` ("23421337",
"meowmeow", "*squeak*" as ASCII bytes). -/
def testSerials : List SerialNumber :=
  [[0x32, 0x33, 0x34, 0x32, 0x31, 0x33, 0x33, 0x37],
   [0x6d, 0x65, 0x6f, 0x77, 0x6d, 0x65, 0x6f, 0x77],
   [0x2a, 0x73, 0x71, 0x75, 0x65, 0x61, 0x6b, 0x2a]]

/- ### Basic facts about the stream -/

lemma next_skip {b : Nat} (rest : Random) (h : ¬ b < 200) :
    Random.next (b :: rest) = Random.next rest := by
  simp [Random.next, h]

lemma next_accept {b : Nat} (rest : Random) (h : b < 200) :
    Random.next (b :: rest) = (.ok (mapByte b), rest) := by
  simp [Random.next, h]

lemma emitted_cons_accept {b : Nat} (l : List Nat) (h : b < 200) :
    emitted (b :: l) = mapByte b :: emitted l := by
  simp [emitted, List.filter_cons, h]

lemma emitted_cons_skip {b : Nat} (l : List Nat) (h : ¬ b < 200) :
    emitted (b :: l) = emitted l := by
  simp [emitted, List.filter_cons, h]

lemma mem_emitted {v : Nat} {l : List Nat} (h : v ∈ emitted l) :
    ∃ b, b < 200 ∧ v = mapByte b := by
  simp only [emitted, List.mem_map, List.mem_filter] at h
  obtain ⟨b, ⟨_, hb⟩, hv⟩ := h
  exact ⟨b, by simpa using hb, hv.symm⟩

lemma next_err_of_emitted_nil {l : Random} (h : emitted l = []) :
    Random.next l = (.error "End of randomness", []) := by
  induction l with
  | nil => rfl
  | cons b rest ih =>
      by_cases hb : b < 200
      · rw [emitted_cons_accept rest hb] at h
        exact absurd h (List.cons_ne_nil _ _)
      · rw [emitted_cons_skip rest hb] at h
        rw [next_skip rest hb]
        exact ih h

lemma next_ok_of_emitted_cons {l : Random} {v : Nat} {vs : List Nat}
    (h : emitted l = v :: vs) :
    ∃ l', Random.next l = (.ok v, l') ∧ emitted l' = vs := by
  induction l with
  | nil => simp [emitted] at h
  | cons b rest ih =>
      by_cases hb : b < 200
      · rw [emitted_cons_accept rest hb] at h
        obtain ⟨hv, hvs⟩ := List.cons.injEq .. ▸ h
        exact ⟨rest, by rw [next_accept rest hb, hv], hvs⟩
      · rw [emitted_cons_skip rest hb] at h
        obtain ⟨l', h1, h2⟩ := ih h
        exact ⟨l', by rw [next_skip rest hb, h1], h2⟩

lemma next_err_msg {l : Random} {e : Error} {l' : Random}
    (h : Random.next l = (.error e, l')) : e = "End of randomness" ∧ l' = [] := by
  induction l with
  | nil =>
      have : (Except.error "End of randomness" : Except Error Nat) = .error e
          ∧ ([] : Random) = l' := by
        constructor <;> simp [Random.next] at h <;> simp [h]
      exact ⟨(Except.error.injEq .. ▸ this.1).symm, this.2.symm⟩
  | cons b rest ih =>
      by_cases hb : b < 200
      · rw [next_accept rest hb] at h
        exact absurd (congrArg Prod.fst h) (by simp)
      · rw [next_skip rest hb] at h
        exact ih h

lemma next_drop (l : Random) : ∃ n, (Random.next l).2 = l.drop n := by
  induction l with
  | nil => exact ⟨0, rfl⟩
  | cons b rest ih =>
      by_cases hb : b < 200
      · exact ⟨1, by rw [next_accept rest hb]; rfl⟩
      · obtain ⟨n, hn⟩ := ih
        exact ⟨n + 1, by rw [next_skip rest hb]; simpa using hn⟩

lemma next_ok_source {l : Random} {v : Nat} {l' : Random}
    (h : Random.next l = (.ok v, l')) :
    ∃ b, b ∈ l ∧ b < 200 ∧ v = mapByte b := by
  induction l with
  | nil => exact absurd (congrArg Prod.fst h) (by simp [Random.next])
  | cons b rest ih =>
      by_cases hb : b < 200
      · rw [next_accept rest hb] at h
        have hv : v = mapByte b := by
          have := congrArg Prod.fst h
          simpa using this.symm
        exact ⟨b, List.mem_cons_self .., hb, hv⟩
      · rw [next_skip rest hb] at h
        obtain ⟨b', hmem, hlt, hv⟩ := ih h
        exact ⟨b', List.mem_cons_of_mem _ hmem, hlt, hv⟩

/- ### Pulling several values: `tryFromFnNext` -/

lemma tryFromFnNext_ok {k : Nat} {l : Random} (h : k ≤ (emitted l).length) :
    ∃ l', tryFromFnNext k l = (.ok ((emitted l).take k), l')
      ∧ emitted l' = (emitted l).drop k := by
  induction k generalizing l with
  | zero => exact ⟨l, rfl, rfl⟩
  | succ k ih =>
      obtain ⟨v, vs, hvvs⟩ : ∃ v vs, emitted l = v :: vs := by
        cases hemit : emitted l with
        | nil => rw [hemit] at h; exact absurd h (by simp)
        | cons v vs => exact ⟨v, vs, rfl⟩
      obtain ⟨l1, hnext, hem1⟩ := next_ok_of_emitted_cons hvvs
      have hk : k ≤ (emitted l1).length := by
        rw [hem1]
        have := h
        rw [hvvs] at this
        simpa using Nat.lt_succ_iff.mp (Nat.lt_of_lt_of_le (Nat.lt_succ_self k) this)
      obtain ⟨l2, hrec, hem2⟩ := ih hk
      refine ⟨l2, ?_, ?_⟩
      · simp only [tryFromFnNext, hnext, hrec, hvvs, hem1, List.take_succ_cons]
      · rw [hem2, hem1, hvvs, List.drop_succ_cons]

lemma tryFromFnNext_err {k : Nat} {l : Random} (h : (emitted l).length < k) :
    ∃ l', tryFromFnNext k l = (.error "End of randomness", l') := by
  induction k generalizing l with
  | zero => exact absurd h (by simp)
  | succ k ih =>
      cases hemit : emitted l with
      | nil =>
          have hnext := next_err_of_emitted_nil hemit
          exact ⟨[], by simp only [tryFromFnNext, hnext]⟩
      | cons v vs =>
          obtain ⟨l1, hnext, hem1⟩ := next_ok_of_emitted_cons hemit
          have hk : (emitted l1).length < k := by
            rw [hem1]
            rw [hemit] at h
            simpa using h
          obtain ⟨l2, hrec⟩ := ih hk
          exact ⟨l2, by simp only [tryFromFnNext, hnext, hrec]⟩

lemma tryFromFnNext_ok_char {k : Nat} {l : Random} {vs : List Nat} {l' : Random}
    (h : tryFromFnNext k l = (.ok vs, l')) :
    k ≤ (emitted l).length ∧ vs = (emitted l).take k
      ∧ emitted l' = (emitted l).drop k := by
  rcases le_or_lt k (emitted l).length with hk | hk
  · obtain ⟨l'', heq, hem⟩ := tryFromFnNext_ok hk
    rw [h] at heq
    obtain ⟨h1, h2⟩ := Prod.mk.injEq .. ▸ heq
    exact ⟨hk, Except.ok.injEq .. ▸ h1, h2 ▸ hem⟩
  · obtain ⟨l'', heq⟩ := tryFromFnNext_err hk
    rw [h] at heq
    exact absurd (congrArg Prod.fst heq) (by simp)

lemma tryFromFnNext_err_msg (k : Nat) :
    ∀ {l : Random} {e : Error} {l' : Random},
      tryFromFnNext k l = (.error e, l') → e = "End of randomness" := by
  induction k with
  | zero =>
      intro l e l' h
      exact absurd (congrArg Prod.fst h) (by simp [tryFromFnNext])
  | succ k ih =>
      intro l e l' h
      rcases hnext : Random.next l with ⟨res, l1⟩
      cases res with
      | error e' =>
          have hmsg := (next_err_msg hnext).1
          simp only [tryFromFnNext, hnext] at h
          obtain ⟨h1, _⟩ := Prod.mk.injEq .. ▸ h
          have he : e' = e := Except.error.injEq .. ▸ h1
          exact he ▸ hmsg
      | ok v =>
          rcases hrec : tryFromFnNext k l1 with ⟨res2, l2⟩
          cases res2 with
          | error e2 =>
              simp only [tryFromFnNext, hnext, hrec] at h
              obtain ⟨h1, _⟩ := Prod.mk.injEq .. ▸ h
              have he : e2 = e := Except.error.injEq .. ▸ h1
              exact he ▸ ih hrec
          | ok vs2 =>
              simp only [tryFromFnNext, hnext, hrec] at h
              exact absurd (congrArg Prod.fst h) (by simp)

/- ### The PIN record layout -/

lemma Pin.new_eq {dp : List Nat} (h : dp.length = Pin.DIGIT_PAIRS) :
    Pin.new dp = (Pin.CONTROL ||| Pin.LENGTH) :: (dp ++ [Pin.STOP]) := by
  have h6 : dp.length = 6 := h
  simp [Pin.new, copyFromSlice, h6]

lemma Pin.new_length {dp : List Nat} (h : dp.length = Pin.DIGIT_PAIRS) :
    (Pin.new dp).length = Pin.SIZE := by
  rw [Pin.new_eq h]
  simp [Pin.SIZE, h]
  rfl

lemma Pin.new_headD {dp : List Nat} (h : dp.length = Pin.DIGIT_PAIRS) :
    (Pin.new dp).headD 0 = (Pin.CONTROL ||| Pin.LENGTH) := by
  rw [Pin.new_eq h]
  rfl

lemma Pin.new_getLast? {dp : List Nat} (h : dp.length = Pin.DIGIT_PAIRS) :
    (Pin.new dp).getLast? = some Pin.STOP := by
  rw [Pin.new_eq h, ← List.cons_append]
  exact List.getLast?_concat _

lemma digitPairsOf_new {dp : List Nat} (h : dp.length = Pin.DIGIT_PAIRS) :
    digitPairsOf (Pin.new dp) = dp := by
  rw [Pin.new_eq h]
  simp only [digitPairsOf, List.drop_succ_cons, List.drop_zero]
  exact List.take_left' h

/- ### `Pin::from_prng` and `pinsFromPrng` -/

lemma from_prng_ok_char {l : Random} {p : Pin} {l' : Random}
    (h : Pin.from_prng l = (.ok p, l')) :
    ∃ dp, tryFromFnNext Pin.DIGIT_PAIRS l = (.ok dp, l') ∧ p = Pin.new dp := by
  rcases hpull : tryFromFnNext Pin.DIGIT_PAIRS l with ⟨res, l1⟩
  cases res with
  | error e =>
      simp only [Pin.from_prng, hpull] at h
      exact absurd (congrArg Prod.fst h) (by simp)
  | ok dp =>
      simp only [Pin.from_prng, hpull] at h
      obtain ⟨h1, h2⟩ := Prod.mk.injEq .. ▸ h
      exact ⟨dp, by rw [h2], (Except.ok.injEq .. ▸ h1).symm⟩

lemma from_prng_err_msg {l : Random} {e : Error} {l' : Random}
    (h : Pin.from_prng l = (.error e, l')) : e = "End of randomness" := by
  rcases hpull : tryFromFnNext Pin.DIGIT_PAIRS l with ⟨res, l1⟩
  cases res with
  | error e1 =>
      simp only [Pin.from_prng, hpull] at h
      obtain ⟨h1, _⟩ := Prod.mk.injEq .. ▸ h
      have he : e1 = e := Except.error.injEq .. ▸ h1
      exact he ▸ tryFromFnNext_err_msg _ hpull
  | ok dp =>
      simp only [Pin.from_prng, hpull] at h
      exact absurd (congrArg Prod.fst h) (by simp)

lemma from_prng_ok {l : Random} (h : Pin.DIGIT_PAIRS ≤ (emitted l).length) :
    ∃ l', Pin.from_prng l
        = (.ok (Pin.new ((emitted l).take Pin.DIGIT_PAIRS)), l')
      ∧ emitted l' = (emitted l).drop Pin.DIGIT_PAIRS := by
  obtain ⟨l', hpull, hem⟩ := tryFromFnNext_ok h
  exact ⟨l', by simp only [Pin.from_prng, hpull], hem⟩

lemma pinsFromPrng_ok_char {m : Nat} {l : Random} {ps : List Pin} {l' : Random}
    (h : pinsFromPrng m l = (.ok ps, l')) :
    ps.length = m
      ∧ m * Pin.DIGIT_PAIRS ≤ (emitted l).length
      ∧ (ps.map digitPairsOf).flatten
          = (emitted l).take (m * Pin.DIGIT_PAIRS)
      ∧ emitted l' = (emitted l).drop (m * Pin.DIGIT_PAIRS)
      ∧ ∀ p ∈ ps, ∃ dp, dp.length = Pin.DIGIT_PAIRS ∧ p = Pin.new dp
          ∧ ∀ v ∈ dp, ∃ b, b < 200 ∧ v = mapByte b := by
  induction m generalizing l ps l' with
  | zero =>
      obtain ⟨h1, h2⟩ := Prod.mk.injEq .. ▸ h
      have hps : ps = [] := (Except.ok.injEq .. ▸ h1).symm
      subst hps
      have hl : l = l' := h2
      subst hl
      simp
  | succ m ih =>
      rcases hfp : Pin.from_prng l with ⟨res, l1⟩
      cases res with
      | error e =>
          simp only [pinsFromPrng, hfp] at h
          exact absurd (congrArg Prod.fst h) (by simp)
      | ok p =>
          rcases hrec : pinsFromPrng m l1 with ⟨res2, l2⟩
          cases res2 with
          | error e =>
              simp only [pinsFromPrng, hfp, hrec] at h
              exact absurd (congrArg Prod.fst h) (by simp)
          | ok ps2 =>
              simp only [pinsFromPrng, hfp, hrec] at h
              obtain ⟨h1, h2⟩ := Prod.mk.injEq .. ▸ h
              have hps : ps = p :: ps2 := (Except.ok.injEq .. ▸ h1).symm
              have hl2 : l2 = l' := h2
              subst hps hl2
              obtain ⟨dp, hpull, hp⟩ := from_prng_ok_char hfp
              obtain ⟨hk6, hdp, hem1⟩ := tryFromFnNext_ok_char hpull
              obtain ⟨hlen2, hle2, hjoin2, hem2, hall2⟩ := ih hrec
              have hdplen : dp.length = Pin.DIGIT_PAIRS := by
                rw [hdp, List.length_take]
                exact Nat.min_eq_left hk6
              have hmul : (m + 1) * Pin.DIGIT_PAIRS
                  = Pin.DIGIT_PAIRS + m * Pin.DIGIT_PAIRS := by
                rw [Nat.succ_mul, Nat.add_comm]
              refine ⟨by simpa using hlen2, ?_, ?_, ?_, ?_⟩
              · rw [hmul]
                have := hle2
                rw [hem1, List.length_drop] at this
                omega
              · rw [hmul, List.take_add, List.map_cons, List.flatten_cons,
                  hjoin2, hem1, hp, digitPairsOf_new hdplen, hdp]
              · rw [hem2, hem1, List.drop_drop, hmul, Nat.add_comm]
              · intro q hq
                rcases List.mem_cons.mp hq with hq | hq
                · refine ⟨dp, hdplen, hq ▸ hp, ?_⟩
                  intro v hv
                  have : v ∈ emitted l := List.take_subset _ _ (hdp ▸ hv)
                  exact mem_emitted this
                · exact hall2 q hq

lemma pinsFromPrng_err {m : Nat} :
    ∀ {l : Random}, (emitted l).length < m * Pin.DIGIT_PAIRS →
      ∃ l', pinsFromPrng m l = (.error "End of randomness", l') := by
  induction m with
  | zero => intro l h; exact absurd h (by simp)
  | succ m ih =>
      intro l h
      rcases le_or_lt Pin.DIGIT_PAIRS (emitted l).length with h6 | h6
      · obtain ⟨l1, hfp, hem1⟩ := from_prng_ok h6
        have hlt : (emitted l1).length < m * Pin.DIGIT_PAIRS := by
          rw [hem1, List.length_drop]
          have : (m + 1) * Pin.DIGIT_PAIRS
              = m * Pin.DIGIT_PAIRS + Pin.DIGIT_PAIRS := Nat.succ_mul ..
          omega
        obtain ⟨l2, hrec⟩ := ih hlt
        exact ⟨l2, by simp only [pinsFromPrng, hfp, hrec]⟩
      · obtain ⟨l1, hpull⟩ := tryFromFnNext_err h6
        refine ⟨l1, ?_⟩
        simp only [pinsFromPrng, Pin.from_prng, hpull]

lemma pinsFromPrng_err_msg (m : Nat) :
    ∀ {l : Random} {e : Error} {l' : Random},
      pinsFromPrng m l = (.error e, l') → e = "End of randomness" := by
  induction m with
  | zero =>
      intro l e l' h
      exact absurd (congrArg Prod.fst h) (by simp [pinsFromPrng])
  | succ m ih =>
      intro l e l' h
      rcases hfp : Pin.from_prng l with ⟨res, l1⟩
      cases res with
      | error e1 =>
          simp only [pinsFromPrng, hfp] at h
          obtain ⟨h1, _⟩ := Prod.mk.injEq .. ▸ h
          have he : e1 = e := Except.error.injEq .. ▸ h1
          exact he ▸ from_prng_err_msg hfp
      | ok p =>
          rcases hrec : pinsFromPrng m l1 with ⟨res2, l2⟩
          cases res2 with
          | error e2 =>
              simp only [pinsFromPrng, hfp, hrec] at h
              obtain ⟨h1, _⟩ := Prod.mk.injEq .. ▸ h
              have he : e2 = e := Except.error.injEq .. ▸ h1
              exact he ▸ ih hrec
          | ok ps2 =>
              simp only [pinsFromPrng, hfp, hrec] at h
              exact absurd (congrArg Prod.fst h) (by simp)

/- ### Deriving the PRNG buffer -/

lemma foldl_chain_update (ids : List SerialNumber) :
    ∀ a : List Nat,
      (ids.foldl (fun h sn => h.chain_update sn) (Sha512Ctx.mk a)).msg
        = a ++ ids.flatten := by
  induction ids with
  | nil => intro a; simp
  | cons sn rest ih =>
      intro a
      rw [List.foldl_cons]
      show (rest.foldl (fun h sn => h.chain_update sn)
        (Sha512Ctx.mk (a ++ sn))).msg = a ++ (sn :: rest).flatten
      rw [ih (a ++ sn), List.flatten_cons, List.append_assoc]

lemma tryDerivePrng_ids {hash : List Nat → List Nat}
    {deviceRead : Except Error (List SerialNumber)} {ids : List SerialNumber}
    {serial_numbers : Option (List SerialNumber)}
    (hlen : ∀ m, (hash m).length = SHA512_HASH_LENGTH)
    (hids : (match serial_numbers with
             | some ids => Except.ok ids
             | none => deviceRead) = .ok ids) :
    tryDerivePrng hash deviceRead serial_numbers
      = .ok (hash ids.flatten ++ hash (hash ids.flatten)) := by
  have h1 : (hash ids.flatten).length = 64 := hlen ids.flatten
  have hstep1 :
      copyFromSlice (List.replicate (2 * SHA512_HASH_LENGTH) 0) 0
          (hash ids.flatten)
        = hash ids.flatten ++ List.replicate 64 0 := by
    simp only [copyFromSlice, List.take_zero, Nat.zero_add, h1, List.nil_append]
    have hdrop : List.drop 64 (List.replicate (2 * SHA512_HASH_LENGTH) 0)
        = List.replicate 64 0 := by decide
    rw [hdrop]
  have htake : (hash ids.flatten ++ List.replicate 64 0).take SHA512_HASH_LENGTH
      = hash ids.flatten := List.take_left' h1
  have hstep2 :
      copyFromSlice (hash ids.flatten ++ List.replicate 64 0)
          SHA512_HASH_LENGTH (hash (hash ids.flatten))
        = hash ids.flatten ++ hash (hash ids.flatten) := by
    have h2 : (hash (hash ids.flatten)).length = 64 := hlen _
    simp only [copyFromSlice, htake, h2]
    have hdrop : (hash ids.flatten ++ List.replicate 64 0).drop
        (SHA512_HASH_LENGTH + 64) = [] := by
      apply List.drop_eq_nil_of_le
      simp [h1, SHA512_HASH_LENGTH]
    rw [hdrop, List.append_nil]
  have hmsg : (ids.foldl (fun h sn => h.chain_update sn) Sha512Ctx.new).msg
      = ids.flatten := by
    rw [show Sha512Ctx.new = Sha512Ctx.mk [] from rfl, foldl_chain_update]
    exact List.nil_append _
  have hctx : ∀ x : List Nat, (Sha512Ctx.new.chain_update x).msg = x := by
    intro x
    simp [Sha512Ctx.new, Sha512Ctx.chain_update]
  simp only [tryDerivePrng, hids]
  rw [hmsg, hstep1, hctx, htake, hstep2]
  rfl

lemma tryDerivePrng_err {hash : List Nat → List Nat}
    {deviceRead : Except Error (List SerialNumber)}
    {serial_numbers : Option (List SerialNumber)} {e : Error}
    (h : tryDerivePrng hash deviceRead serial_numbers = .error e) :
    serial_numbers = none ∧ deviceRead = .error e := by
  cases serial_numbers with
  | some ids => exact absurd h (by simp [tryDerivePrng])
  | none =>
      cases hdr : deviceRead with
      | error e1 =>
          simp only [tryDerivePrng, hdr] at h
          have he : e1 = e := Except.error.injEq .. ▸ h
          exact ⟨rfl, by rw [he]⟩
      | ok ids =>
          simp only [tryDerivePrng, hdr] at h
          exact absurd h (by simp)

/- ### Orchestrator-level facts -/

lemma mapByte_nibble_le : ∀ b, b < 200 → mapByte b / 16 ≤ 9 ∧ mapByte b % 16 ≤ 9 := by
  decide

lemma calcAll_ok_char {hash : List Nat → List Nat}
    {dr : Except Error (List SerialNumber)}
    {sn : Option (List SerialNumber)} {pins : List Pin}
    (h : tryCalculateAllPinsWithAlgorithm hash dr sn .DoubleSHA512 = .ok pins) :
    ∃ buffer l', tryDerivePrng hash dr sn = .ok buffer
      ∧ pinsFromPrng NUMBER_OF_PINS buffer = (.ok pins, l') := by
  cases hd : tryDerivePrng hash dr sn with
  | error e =>
      simp only [tryCalculateAllPinsWithAlgorithm, hd] at h
      exact absurd h (by simp)
  | ok buffer =>
      simp only [tryCalculateAllPinsWithAlgorithm, hd] at h
      rcases hp : pinsFromPrng NUMBER_OF_PINS buffer with ⟨res, l'⟩
      rw [hp] at h
      cases res with
      | error e => exact absurd h (by simp)
      | ok ps =>
          have : ps = pins := Except.ok.injEq .. ▸ h
          exact ⟨buffer, l', rfl, this ▸ hp⟩

lemma calcAll_err_char {hash : List Nat → List Nat}
    {dr : Except Error (List SerialNumber)}
    {sn : Option (List SerialNumber)} {e : Error}
    (h : tryCalculateAllPinsWithAlgorithm hash dr sn .DoubleSHA512 = .error e) :
    (sn = none ∧ dr = .error e) ∨ e = "End of randomness" := by
  cases hd : tryDerivePrng hash dr sn with
  | error e1 =>
      simp only [tryCalculateAllPinsWithAlgorithm, hd] at h
      have he : e1 = e := Except.error.injEq .. ▸ h
      exact Or.inl (he ▸ tryDerivePrng_err hd)
  | ok buffer =>
      simp only [tryCalculateAllPinsWithAlgorithm, hd] at h
      rcases hp : pinsFromPrng NUMBER_OF_PINS buffer with ⟨res, l'⟩
      rw [hp] at h
      cases res with
      | ok ps => exact absurd h (by simp)
      | error e2 =>
          have he : e2 = e := Except.error.injEq .. ▸ h
          exact Or.inr (he ▸ pinsFromPrng_err_msg _ hp)

/-- Every PIN record an (always successful or failed atomically) run returns
is `Pin.new` of six digit pairs whose nibbles are decimal digits. -/
lemma produced_pin_shape {hash : List Nat → List Nat}
    {dr : Except Error (List SerialNumber)}
    {sn : Option (List SerialNumber)} {alg : Algorithm} {pins : List Pin}
    (h : tryCalculateAllPinsWithAlgorithm hash dr sn alg = .ok pins) :
    ∀ p ∈ pins, ∃ dp, dp.length = Pin.DIGIT_PAIRS ∧ p = Pin.new dp
      ∧ ∀ v ∈ dp, v / 16 ≤ 9 ∧ v % 16 ≤ 9 := by
  cases alg with
  | DefaultPin =>
      intro p hp
      have hpins : pins = List.replicate NUMBER_OF_PINS Pin.default := by
        simp only [tryCalculateAllPinsWithAlgorithm] at h
        exact (Except.ok.injEq .. ▸ h).symm
      have hpd : p = Pin.default := by
        rw [hpins] at hp
        exact List.eq_of_mem_replicate hp
      refine ⟨[0x12, 0x34, 0x56, 0x78, 0x91, 0x23], by decide, hpd, ?_⟩
      decide
  | DoubleSHA512 =>
      intro p hp
      obtain ⟨buffer, l', _, hpp⟩ := calcAll_ok_char h
      obtain ⟨_, _, _, _, hall⟩ := pinsFromPrng_ok_char hpp
      obtain ⟨dp, hlen, hnew, hvals⟩ := hall p hp
      refine ⟨dp, hlen, hnew, ?_⟩
      intro v hv
      obtain ⟨b, hb, hvb⟩ := hvals v hv
      exact hvb ▸ mapByte_nibble_le b hb

/- ### Claim theorems -/

/-- Claim C1, counterexample: the claim states that every produced
PinRecord has total length 9; but `Pin::default()` (returned verbatim by
the `DefaultPin` derivation path) is `2 + DIGIT_PAIRS = 8` bytes long, so
the claim as stated is false. -/
theorem claim_C1_cex :
    tryCalculateAllPinsWithAlgorithm hashZero (.ok []) (some testSerials)
        .DefaultPin
      = .ok (List.replicate NUMBER_OF_PINS Pin.default)
    ∧ Pin.default.length = 8
    ∧ ¬ Pin.default.length = 9 := by
  refine ⟨rfl, by decide, by decide⟩

/-- Claim C1 (amended): every PinRecord produced by the program (by
`Pin::new`, `Pin::default`, or `Pin::from_prng`, hence every record a
derivation run returns) is a fixed-length byte array of total length
`Pin.SIZE = 8` bytes: 1 control/length byte, followed by
`DIGIT_PAIRS = 6` digit-pair bytes, followed by 1 stop byte. -/
theorem claim_C1 :
    (∀ dp : List Nat, dp.length = Pin.DIGIT_PAIRS →
        (Pin.new dp).length = Pin.SIZE
      ∧ Pin.new dp = (Pin.CONTROL ||| Pin.LENGTH) :: (dp ++ [Pin.STOP]))
    ∧ Pin.default.length = Pin.SIZE
    ∧ (∀ l p l', Pin.from_prng l = (.ok p, l') → p.length = Pin.SIZE)
    ∧ (∀ hash dr sn alg pins,
        tryCalculateAllPinsWithAlgorithm hash dr sn alg = .ok pins →
          ∀ p ∈ pins, p.length = Pin.SIZE)
    ∧ Pin.SIZE = 1 + Pin.DIGIT_PAIRS + 1
    ∧ Pin.SIZE = 8 := by
  refine ⟨fun dp h => ⟨Pin.new_length h, Pin.new_eq h⟩, by decide, ?_, ?_,
    by decide, by decide⟩
  · intro l p l' h
    obtain ⟨dp, hpull, hp⟩ := from_prng_ok_char h
    obtain ⟨hk, hdp, _⟩ := tryFromFnNext_ok_char hpull
    have hlen : dp.length = Pin.DIGIT_PAIRS := by
      rw [hdp, List.length_take]
      exact Nat.min_eq_left hk
    exact hp ▸ Pin.new_length hlen
  · intro hash dr sn alg pins h p hp
    obtain ⟨dp, hlen, hnew, _⟩ := produced_pin_shape h p hp
    exact hnew ▸ Pin.new_length hlen

/-- Claim C1 witness: the parts with hypotheses, instantiated at the
default record and a zero-hash derivation run. -/
theorem claim_C1_witness :
    ((Pin.new [1, 2, 3, 4, 5, 6]).length = Pin.SIZE
      ∧ Pin.new [1, 2, 3, 4, 5, 6]
          = (Pin.CONTROL ||| Pin.LENGTH) :: ([1, 2, 3, 4, 5, 6] ++ [Pin.STOP]))
    ∧ Pin.default.length = Pin.SIZE :=
  ⟨claim_C1.1 [1, 2, 3, 4, 5, 6] (by decide), claim_C1.2.1⟩

/-- Claim C2: for every byte `b < 200` the rejection mapping packs the
digit pair with high nibble `(b % 100) / 10` and low nibble `b % 10`;
across `b ∈ [0, 200)` every packed pair of `[0,9] × [0,9]` is hit exactly
twice; a byte `b ≥ 200` is skipped by `Random::next` and every value it
emits comes from some byte `< 200`. -/
theorem claim_C2 :
    (∀ b, b < 200 →
      mapByte b / 16 = b % 100 / 10 ∧ mapByte b % 16 = b % 10)
    ∧ (∀ t, t ≤ 9 → ∀ u, u ≤ 9 →
        ((List.range 200).filter
          (fun b => decide (mapByte b = ((t <<< 4) ||| u)))).length = 2)
    ∧ (∀ (b : Nat) (rest : Random), 200 ≤ b →
        Random.next (b :: rest) = Random.next rest)
    ∧ (∀ (l : Random) (v : Nat) (l' : Random),
        Random.next l = (.ok v, l') →
          ∃ b, b ∈ l ∧ b < 200 ∧ v = mapByte b) := by
  refine ⟨by decide, by decide, ?_, ?_⟩
  · intro b rest h
    exact next_skip rest (Nat.not_lt.2 h)
  · intro l v l' h
    exact next_ok_source h

/-- Claim C2 witness: the universally quantified parts instantiated at
byte 137 (digit pair 3/7), target pair (3,7), and a skipped byte 250. -/
theorem claim_C2_witness :
    (mapByte 137 / 16 = 137 % 100 / 10 ∧ mapByte 137 % 16 = 137 % 10)
    ∧ ((List.range 200).filter
        (fun b => decide (mapByte b = ((3 <<< 4) ||| 7)))).length = 2
    ∧ Random.next (250 :: [137]) = Random.next [137] :=
  ⟨claim_C2.1 137 (by decide), claim_C2.2.1 3 (by decide) 7 (by decide),
    claim_C2.2.2.1 250 [137] (by decide)⟩

/-- Claim C5: every PinRecord a derivation run returns has byte 0 equal to
the control/length constant `CONTROL ||| LENGTH` (`0x20 | 12`), final
byte `STOP = 0xff`, and each digit-pair byte has both nibbles `≤ 9`. -/
theorem claim_C5 (hash : List Nat → List Nat)
    (dr : Except Error (List SerialNumber))
    (sn : Option (List SerialNumber)) (alg : Algorithm) (pins : List Pin)
    (h : tryCalculateAllPinsWithAlgorithm hash dr sn alg = .ok pins) :
    ∀ p ∈ pins,
      p.headD 0 = (Pin.CONTROL ||| Pin.LENGTH)
      ∧ p.getLast? = some Pin.STOP
      ∧ ∀ v ∈ digitPairsOf p, v / 16 ≤ 9 ∧ v % 16 ≤ 9 := by
  intro p hp
  obtain ⟨dp, hlen, hnew, hnib⟩ := produced_pin_shape h p hp
  subst hnew
  refine ⟨Pin.new_headD hlen, Pin.new_getLast? hlen, ?_⟩
  intro v hv
  rw [digitPairsOf_new hlen] at hv
  exact hnib v hv

/-- Claim C5 witness: layout of the default record returned by the
`DefaultPin` path. -/
theorem claim_C5_witness :
    Pin.default.headD 0 = (Pin.CONTROL ||| Pin.LENGTH)
    ∧ Pin.default.getLast? = some Pin.STOP
    ∧ ∀ v ∈ digitPairsOf Pin.default, v / 16 ≤ 9 ∧ v % 16 ≤ 9 :=
  claim_C5 hashZero (.ok []) (some testSerials) .DefaultPin
    (List.replicate NUMBER_OF_PINS Pin.default) rfl Pin.default (by decide)

/-- Claim C6: once `Random::next` has returned the exhaustion error the
iterator is empty and every later call fails identically, and the cursor
only ever moves forward (the remaining bytes are a suffix of the previous
remaining bytes). -/
theorem claim_C6 :
    (∀ (l : Random) (e : Error) (l' : Random),
      Random.next l = (.error e, l') →
        l' = [] ∧ Random.next l' = (.error e, l'))
    ∧ (∀ l : Random, ∃ n, (Random.next l).2 = l.drop n) := by
  refine ⟨?_, next_drop⟩
  intro l e l' h
  obtain ⟨he, hl⟩ := next_err_msg h
  subst hl
  subst he
  exact ⟨rfl, rfl⟩

/-- Claim C6 witness: a buffer holding only the rejected byte 200 exhausts,
stays exhausted, and ends with an empty cursor. -/
theorem claim_C6_witness :
    ([] : Random) = []
    ∧ Random.next [] = (.error "End of randomness", []) :=
  claim_C6.1 [200] "End of randomness" [] rfl

/-- Claim C7: the `DefaultPin` algorithm always succeeds with
`NUMBER_OF_PINS` identical copies of the default record — whatever the
hash function, device-read outcome and serial numbers are (so neither the
entropy expansion nor the digit stream can influence the result) — and the
default record encodes the digit sequence 1 2 3 4 5 6 7 8 9 1 2 3. -/
theorem claim_C7 (hash : List Nat → List Nat)
    (dr : Except Error (List SerialNumber))
    (sn : Option (List SerialNumber)) :
    tryCalculateAllPinsWithAlgorithm hash dr sn .DefaultPin
        = .ok (List.replicate NUMBER_OF_PINS Pin.default)
    ∧ (List.replicate NUMBER_OF_PINS Pin.default).length = NUMBER_OF_PINS
    ∧ (∀ p ∈ List.replicate NUMBER_OF_PINS Pin.default, p = Pin.default)
    ∧ (digitPairsOf Pin.default).flatMap (fun v => [v / 16, v % 16])
        = [1, 2, 3, 4, 5, 6, 7, 8, 9, 1, 2, 3] := by
  refine ⟨rfl, by decide, ?_, by decide⟩
  intro p hp
  exact List.eq_of_mem_replicate hp

/-- Claim C3: when the hash digests are `SHA512_HASH_LENGTH = 64` bytes
long, the `DoubleSHA512` entropy buffer is exactly
`digest1 = hash(identifier_1 ‖ … ‖ identifier_N)` (one hashing context,
no separators) followed by `digest2 = hash(digest1)` — both for supplied
serial numbers and for serial numbers read from the devices — and the
buffer is `2 * SHA512_HASH_LENGTH = 128` bytes long. -/
theorem claim_C3 (hash : List Nat → List Nat)
    (dr : Except Error (List SerialNumber)) (ids : List SerialNumber)
    (hlen : ∀ m, (hash m).length = SHA512_HASH_LENGTH) :
    tryDerivePrng hash dr (some ids)
        = .ok (hash ids.flatten ++ hash (hash ids.flatten))
    ∧ (dr = .ok ids →
        tryDerivePrng hash dr none
          = .ok (hash ids.flatten ++ hash (hash ids.flatten)))
    ∧ (hash ids.flatten ++ hash (hash ids.flatten)).length
        = 2 * SHA512_HASH_LENGTH := by
  refine ⟨tryDerivePrng_ids hlen rfl, ?_, ?_⟩
  · intro hdr
    exact tryDerivePrng_ids hlen hdr
  · rw [List.length_append, hlen, hlen, Nat.two_mul]

/-- Claim C3 witness: the all-zero stand-in digest at the hard-coded
serial numbers. -/
theorem claim_C3_witness :
    tryDerivePrng hashZero (.ok testSerials) (some testSerials)
        = .ok (hashZero testSerials.flatten
            ++ hashZero (hashZero testSerials.flatten))
    ∧ (hashZero testSerials.flatten
        ++ hashZero (hashZero testSerials.flatten)).length
          = 2 * SHA512_HASH_LENGTH :=
  ⟨(claim_C3 hashZero (.ok testSerials) testSerials (fun _ => rfl)).1,
    (claim_C3 hashZero (.ok testSerials) testSerials (fun _ => rfl)).2.2⟩

/-- Claim C4: in a `DoubleSHA512` run whose buffer holds fewer than
`NUMBER_OF_PINS * DIGIT_PAIRS` acceptable bytes — so one of the
`M × K` calls to `next()` is exhausted — the whole derivation returns the
exhaustion error and no list of PIN records at all. -/
theorem claim_C4 (hash : List Nat → List Nat)
    (dr : Except Error (List SerialNumber))
    (sn : Option (List SerialNumber)) (buffer : Random)
    (hbuf : tryDerivePrng hash dr sn = .ok buffer)
    (hex : (emitted buffer).length < NUMBER_OF_PINS * Pin.DIGIT_PAIRS) :
    tryCalculateAllPinsWithAlgorithm hash dr sn .DoubleSHA512
        = .error "End of randomness"
    ∧ ∀ pins, tryCalculateAllPinsWithAlgorithm hash dr sn .DoubleSHA512
        ≠ .ok pins := by
  obtain ⟨l', hp⟩ := pinsFromPrng_err hex
  have hres : tryCalculateAllPinsWithAlgorithm hash dr sn .DoubleSHA512
      = .error "End of randomness" := by
    simp only [tryCalculateAllPinsWithAlgorithm, hbuf, hp]
  exact ⟨hres, fun pins h => absurd (hres ▸ h) (by simp)⟩

/-- Claim C4 witness: the all-`0xff` stand-in digest yields a buffer with
no acceptable byte, and the run fails with the exhaustion error. -/
theorem claim_C4_witness :
    tryCalculateAllPinsWithAlgorithm hashFF (.ok []) (some testSerials)
        .DoubleSHA512 = .error "End of randomness" :=
  (claim_C4 hashFF (.ok []) (some testSerials) (List.replicate 128 255)
    rfl (by decide)).1

/-- Claim C8: in every successful `DoubleSHA512` run, the concatenation of
the six digit-pair bytes of the `NUMBER_OF_PINS` records, in order,
equals the first `NUMBER_OF_PINS * DIGIT_PAIRS` values of the stream's
accepted-byte sequence in buffer order — disjoint, gap-free, in-order
consumption from the single shared stream. -/
theorem claim_C8 (hash : List Nat → List Nat)
    (dr : Except Error (List SerialNumber))
    (sn : Option (List SerialNumber)) (buffer : Random) (pins : List Pin)
    (hbuf : tryDerivePrng hash dr sn = .ok buffer)
    (hok : tryCalculateAllPinsWithAlgorithm hash dr sn .DoubleSHA512
      = .ok pins) :
    pins.length = NUMBER_OF_PINS
    ∧ (pins.map digitPairsOf).flatten
        = (emitted buffer).take (NUMBER_OF_PINS * Pin.DIGIT_PAIRS)
    ∧ NUMBER_OF_PINS * Pin.DIGIT_PAIRS ≤ (emitted buffer).length := by
  obtain ⟨buffer2, l', hbuf2, hpp⟩ := calcAll_ok_char hok
  have hbb : buffer2 = buffer := by
    rw [hbuf] at hbuf2
    exact (Except.ok.injEq .. ▸ hbuf2).symm
  subst hbb
  obtain ⟨hlen, hle, hjoin, _, _⟩ := pinsFromPrng_ok_char hpp
  exact ⟨hlen, hjoin, hle⟩

/-- Claim C8 witness: the all-zero stand-in digest gives a run whose six
records all pack the pair (0,0), matching the first 36 accepted bytes. -/
theorem claim_C8_witness :
    (List.replicate NUMBER_OF_PINS
        ([44, 0, 0, 0, 0, 0, 0, 255] : Pin)).length = NUMBER_OF_PINS
    ∧ ((List.replicate NUMBER_OF_PINS
          ([44, 0, 0, 0, 0, 0, 0, 255] : Pin)).map digitPairsOf).flatten
        = (emitted (List.replicate 128 0)).take
            (NUMBER_OF_PINS * Pin.DIGIT_PAIRS)
    ∧ NUMBER_OF_PINS * Pin.DIGIT_PAIRS
        ≤ (emitted (List.replicate 128 0)).length :=
  claim_C8 hashZero (.ok []) (some testSerials) (List.replicate 128 0)
    (List.replicate NUMBER_OF_PINS [44, 0, 0, 0, 0, 0, 0, 255]) rfl rfl

/-- Claim C9: `try_get_pin_by_id` fails with the out-of-range error for
every index `≥ NUMBER_OF_PINS`; that error string differs from every
error the derivation itself can produce (device-read failures or
exhaustion); and for an index `< NUMBER_OF_PINS` with a successful
derivation it returns the record at that index. -/
theorem claim_C9 (hash : List Nat → List Nat)
    (dr : Except Error (List SerialNumber))
    (sn : Option (List SerialNumber))
    (hdr : ∀ e, dr = .error e →
      e = "Cannot open smart card readers" ∨ e = "Cannot read from file") :
    (∀ pin_index, NUMBER_OF_PINS ≤ pin_index →
      tryGetPinById hash dr sn pin_index = .error "pin-index out of range")
    ∧ (∀ e, tryCalculateAllPins hash dr sn = .error e →
        e ≠ "pin-index out of range")
    ∧ (∀ pin_index pins, pin_index < NUMBER_OF_PINS →
        tryCalculateAllPins hash dr sn = .ok pins →
          tryGetPinById hash dr sn pin_index
            = .ok (pins.getD pin_index [])) := by
  refine ⟨?_, ?_, ?_⟩
  · intro pin_index h
    simp only [tryGetPinById, if_neg (Nat.not_lt.2 h)]
  · intro e h
    rcases calcAll_err_char h with ⟨_, hdre⟩ | he
    · rcases hdr e hdre with he | he <;> subst he <;> decide
    · subst he
      decide
  · intro pin_index pins hlt hok
    simp only [tryGetPinById, if_pos hlt, hok]
    rfl

/-- Claim C9 witness: index 6 is rejected as out of range, and index 2 of
the successful all-zero run returns that run's third record. -/
theorem claim_C9_witness :
    tryGetPinById hashZero (.ok []) (some testSerials) 6
        = .error "pin-index out of range"
    ∧ tryGetPinById hashZero (.ok []) (some testSerials) 2
        = .ok ((List.replicate NUMBER_OF_PINS
            ([44, 0, 0, 0, 0, 0, 0, 255] : Pin)).getD 2 []) :=
  ⟨(claim_C9 hashZero (.ok []) (some testSerials)
      (fun _ h => Except.noConfusion h)).1 6 (by decide),
    (claim_C9 hashZero (.ok []) (some testSerials)
      (fun _ h => Except.noConfusion h)).2.2 2
      (List.replicate NUMBER_OF_PINS [44, 0, 0, 0, 0, 0, 0, 255])
      (by decide) rfl⟩

/-- Claim C10 (implicit): for an out-of-range index the out-of-range error
is returned even when the underlying derivation for the given identifiers
itself fails — the index-bounds error masks any derivation error. -/
theorem claim_C10 (hash : List Nat → List Nat)
    (dr : Except Error (List SerialNumber))
    (sn : Option (List SerialNumber)) (pin_index : Nat) (e : Error)
    (hidx : NUMBER_OF_PINS ≤ pin_index)
    (hfail : tryCalculateAllPins hash dr sn = .error e) :
    tryGetPinById hash dr sn pin_index = .error "pin-index out of range" := by
  simp only [tryGetPinById, if_neg (Nat.not_lt.2 hidx)]

/-- Claim C10 witness: with the all-`0xff` stand-in digest the derivation
fails with exhaustion, yet index 7 still reports the out-of-range error. -/
theorem claim_C10_witness :
    tryGetPinById hashFF (.ok []) (some testSerials) 7
        = .error "pin-index out of range" :=
  claim_C10 hashFF (.ok []) (some testSerials) 7 "End of randomness"
    (by decide) rfl

end PinCalc
